import Mathlib

/-!
Verification of `scripts/update_readme.py` (notebook-list synchronizer).

Strings are modelled as `List Char`; the filesystem inputs of the script
(root directory listing, per-directory children, `README.md` contents) are
explicit parameters.  Each definition mirrors the Python function of the
same (snake-cased) name.
-/

set_option maxRecDepth 10000

/-- Python's Unicode whitespace class (`str.strip`, `str.isspace`, regex `\s`). -/
def isPySpace (c : Char) : Bool :=
  (0x09 ≤ c.toNat && c.toNat ≤ 0x0d) || c.toNat = 0x20 ||
  (0x1c ≤ c.toNat && c.toNat ≤ 0x1f) || c.toNat = 0x85 || c.toNat = 0xa0 ||
  c.toNat = 0x1680 || (0x2000 ≤ c.toNat && c.toNat ≤ 0x200a) ||
  c.toNat = 0x2028 || c.toNat = 0x2029 || c.toNat = 0x202f ||
  c.toNat = 0x205f || c.toNat = 0x3000

/-- Line boundary characters of Python's `str.splitlines`. -/
def isLineBoundary (c : Char) : Bool :=
  c.toNat = 0x0a || c.toNat = 0x0d || c.toNat = 0x0b || c.toNat = 0x0c ||
  (0x1c ≤ c.toNat && c.toNat ≤ 0x1e) || c.toNat = 0x85 ||
  c.toNat = 0x2028 || c.toNat = 0x2029

/-- Worker for `splitLinesPy`; `acc` is the current line, reversed. -/
def splitLinesGo (acc : List Char) : List Char → List (List Char)
  | [] => [acc.reverse]
  | '\r' :: '\n' :: rest =>
    acc.reverse :: (if rest = [] then [] else splitLinesGo [] rest)
  | c :: rest =>
    if isLineBoundary c then
      acc.reverse :: (if rest = [] then [] else splitLinesGo [] rest)
    else
      splitLinesGo (c :: acc) rest

/-- Python `str.splitlines` (no terminal empty line). -/
def splitLinesPy (s : List Char) : List (List Char) :=
  if s = [] then [] else splitLinesGo [] s

/-- Python `str.strip()` (both ends). -/
def pyStripL (l : List Char) : List Char :=
  ((l.dropWhile isPySpace).reverse.dropWhile isPySpace).reverse

/-- Python `str.rstrip()`. -/
def pyRstrip (l : List Char) : List Char :=
  (l.reverse.dropWhile isPySpace).reverse

/-- `sub` is a prefix of `s` (Python `str.startswith`). -/
def startsWithL : List Char → List Char → Bool
  | [], _ => true
  | _ :: _, [] => false
  | a :: as, b :: bs => a == b && startsWithL as bs

/-- `suf` is a suffix of `s` (Python `str.endswith`). -/
def endsWithL (suf s : List Char) : Bool :=
  startsWithL suf.reverse s.reverse

/-- Index of the first occurrence of `sub` in `s` (Python `str.find` /
`str.index`; `none` when `sub not in s`). -/
def findSub (s sub : List Char) : Option Nat :=
  if startsWithL sub s then some 0
  else
    match s with
    | [] => none
    | _ :: t => (findSub t sub).map fun n => n + 1

/-- Lexicographic code-point comparison on strings: Python `a <= b`. -/
def leL : List Char → List Char → Bool
  | [], _ => true
  | _ :: _, [] => false
  | a :: as, b :: bs =>
    if a.toNat = b.toNat then leL as bs else decide (a.toNat < b.toNat)

/-- `leL` as a relation (for sorting). -/
abbrev pyLe (a b : List Char) : Prop := leL a b = true

/-- `BEGIN_MARKER` of the script. -/
def beginMarkerL : List Char := "<!-- ZIKUU_NOTEBOOKS_LIST:BEGIN -->".toList

/-- `END_MARKER` of the script. -/
def endMarkerL : List Char := "<!-- ZIKUU_NOTEBOOKS_LIST:END -->".toList

/-- `_replace_between_markers(readme_text, new_block)`: errors when either
marker is absent (`BEGIN_MARKER not in readme_text or END_MARKER not in
readme_text`) or when `end_idx < begin_idx`; otherwise returns
`readme_text[:begin_idx] + "\n" + new_block + readme_text[end_idx:]` where
`begin_idx = readme_text.index(BEGIN_MARKER) + len(BEGIN_MARKER)` and
`end_idx = readme_text.index(END_MARKER)`. -/
def replaceBetweenMarkers (readmeText newBlock : List Char) :
    Except String (List Char) :=
  match findSub readmeText beginMarkerL, findSub readmeText endMarkerL with
  | some bStart, some eStart =>
    let beginIdx := bStart + beginMarkerL.length
    let endIdx := eStart
    if endIdx < beginIdx then
      Except.error "マーカーの順序が不正です（END が BEGIN より前）"
    else
      Except.ok (readmeText.take beginIdx ++ '\n' :: (newBlock ++ readmeText.drop endIdx))
  | _, _ => Except.error "README.md にマーカーが見つかりません（BEGIN/END）"

/-- Tail of `main()` once the README exists and the new block is computed:
substitute, then write back only when the text changed.  The result is
`(written?, file text after the run)`; an exception leaves the file as it
was (the write is the single final step). -/
def mainRun (original newBlock : List Char) :
    Except String (Bool × List Char) :=
  match replaceBetweenMarkers original newBlock with
  | Except.error e => Except.error e
  | Except.ok updated =>
    if updated = original then Except.ok (false, original)
    else Except.ok (true, updated)

/-- File contents after a run of `main` on `original` (unchanged when the
run aborts with an exception: the write never happened). -/
def fileAfter (original newBlock : List Char) : List Char :=
  match mainRun original newBlock with
  | Except.error _ => original
  | Except.ok r => r.2

/-! ### `_parse_github_repo_from_remote`

The two regexes of the source,

  `^https?://github\.com/([^/]+)/([^/]+?)(?:\.git)?/?$`
  `^git@github\.com:([^/]+)/([^/]+?)(?:\.git)?$`

are compiled by hand.  After the literal prefix, group 1 (`[^/]+`, greedy,
followed by a literal `/`) is everything up to the first `/`; group 2
(`[^/]+?`, lazy) is the shortest non-empty slash-free prefix of the
remainder after which only the optional `.git` (and, in the HTTPS form, an
optional final `/`) remains. -/

/-- Remainder allowed after group 2: `(?:\.git)?/?$` when `slashOk`,
`(?:\.git)?$` otherwise. -/
def repoTailOk (slashOk : Bool) (rest : List Char) : Bool :=
  rest = [] || rest = ".git".toList ||
  (slashOk && (rest = ['/'] || rest = ".git/".toList))

/-- Lazy group `([^/]+?)` before the tail: the shortest non-empty
slash-free prefix whose remainder satisfies `repoTailOk`. -/
def repoGroup (slashOk : Bool) : List Char → Option (List Char)
  | [] => none
  | c :: rest =>
    if c = '/' then none
    else if repoTailOk slashOk rest then some [c]
    else (repoGroup slashOk rest).map fun g => c :: g

/-- Greedy group `([^/]+)` followed by a literal `/`, then group 2 with its
tail; yields `OWNER/REPO` (the `f"{m.group(1)}/{m.group(2)}"` of the
source). -/
def ownerRepoOf (slashOk : Bool) (s : List Char) : Option (List Char) :=
  let owner := s.takeWhile fun c => c ≠ '/'
  match owner, s.drop owner.length with
  | [], _ => none
  | _, '/' :: r => (repoGroup slashOk r).map fun g => owner ++ '/' :: g
  | _, _ => none

/-- Anchored literal prefix, returning the remainder. -/
def afterLit (lit s : List Char) : Option (List Char) :=
  if startsWithL lit s then some (s.drop lit.length) else none

/-- `_parse_github_repo_from_remote(remote_url)`. -/
def parseGithubRepoFromRemote (remoteUrl : List Char) : Option (List Char) :=
  let r := pyStripL remoteUrl
  match
    (match afterLit "https://github.com/".toList r with
     | some rest => some rest
     | none => afterLit "http://github.com/".toList r) with
  | some rest =>
    match ownerRepoOf true rest with
    | some v => some v
    | none => none
  | none =>
    match afterLit "git@github.com:".toList r with
    | some rest => ownerRepoOf false rest
    | none => none

/-- `_detect_github_repo`: `env` is `os.getenv("ZIKUU_GITHUB_REPO")`
(`none` when unset), `remote` the result of
`_run_git(["config", "--get", "remote.origin.url"])` (`none` on any
failure, already stripped). -/
def detectGithubRepo (env : Option (List Char)) (remote : Option (List Char)) :
    Option (List Char) :=
  let envRepo := pyStripL (env.getD [])
  if envRepo ≠ [] then some envRepo
  else
    match remote with
    | some r =>
      if r ≠ [] then
        match parseGithubRepoFromRemote r with
        | some parsed => if parsed ≠ [] then some parsed else none
        | none => none
      else none
    | none => none

/-! ### Filesystem model and module enumeration -/

/-- A direct child of a top-level directory: a name and the result of
`is_file()`. -/
structure Child where
  name : List Char
  isFile : Bool
deriving DecidableEq

/-- One entry of `repo_root.iterdir()`: its name, whether `is_dir()`, its
direct children, and the contents of its `README.md` when that file
exists. -/
structure RootEntry where
  name : List Char
  isDirectory : Bool
  children : List Child
  readme : Option (List Char)
deriving DecidableEq

/-- The `NotebookItem` dataclass of the source. -/
structure NotebookItem where
  module_dir : List Char
  module_title : List Char
  notebooks : List (List Char)
deriving DecidableEq

/-- `EXCLUDE_DIRS` of the source. -/
def EXCLUDE_DIRS : List (List Char) :=
  [".git".toList, ".github".toList, "__pycache__".toList, ".venv".toList,
   "venv".toList, "node_modules".toList, "scripts".toList, ".idea".toList,
   ".vscode".toList]

/-- One line of `_first_h1_from_readme`'s loop:
`re.match(r"^\s*#\s+(.+?)\s*$", line)` succeeds exactly when, after the
leading whitespace, the line is `#`, a whitespace character, and at least
one further character; `m.group(1).strip()` is then the text after the
`#` stripped of surrounding whitespace. -/
def h1FromLine (line : List Char) : Option (List Char) :=
  match line.dropWhile isPySpace with
  | '#' :: c :: rest =>
    if isPySpace c && rest ≠ [] then some (pyStripL (c :: rest)) else none
  | _ => none

/-- `_first_h1_from_readme`: `none` when the file does not exist or no line
matches; otherwise the first match in file order. -/
def firstH1FromReadme : Option (List Char) → Option (List Char)
  | none => none
  | some text => (splitLinesPy text).findSome? h1FromLine

/-- `_first_h1_from_readme(p / "README.md") or p.name` (Python `or`: the
empty string is falsy, so a blank extracted title also falls back). -/
def titleOf (readme : Option (List Char)) (dirName : List Char) : List Char :=
  match firstH1FromReadme readme with
  | some t => if t = [] then dirName else t
  | none => dirName

/-- Key comparison used by `sorted(repo_root.iterdir(), key=lambda x: x.name)`. -/
abbrev pyLeName (a b : RootEntry) : Prop := leL a.name b.name = true

/-- Python `sorted` on strings.  Python's sort is stable, and a stable sort
for a total preorder is extensionally unique, so a structurally recursive
stable sort models it exactly. -/
def sortStrs (l : List (List Char)) : List (List Char) :=
  List.insertionSort pyLe l

/-- Body of the `for p in sorted(repo_root.iterdir(), ...)` loop in
`_list_modules`: `none` when the entry is skipped (`continue`), the
appended `NotebookItem` otherwise.  `p.glob("*.ipynb")` is the children
whose name ends in `.ipynb` (pathlib's glob has no hidden-file special
case), filtered by `is_file()`. -/
def moduleItemOf (p : RootEntry) : Option NotebookItem :=
  if ¬ p.isDirectory then none
  else if p.name ∈ EXCLUDE_DIRS then none
  else if startsWithL ['.'] p.name then none
  else
    let notebooks := sortStrs (p.children.filterMap fun f =>
      if endsWithL ".ipynb".toList f.name && f.isFile then some f.name else none)
    if notebooks = [] then none
    else some ⟨p.name, titleOf p.readme p.name, notebooks⟩

/-- `_list_modules(repo_root)` over a model of `repo_root.iterdir()`
(the `for` loop with `continue`/`append` is a `filterMap` over the
name-sorted entries). -/
def listModules (entries : List RootEntry) : List NotebookItem :=
  (List.insertionSort pyLeName entries).filterMap moduleItemOf

/-! ### `_render_list` -/

/-- Python `"\n".join(lines)`. -/
def joinNL : List (List Char) → List Char
  | [] => []
  | [x] => x
  | x :: y :: ys => x ++ '\n' :: joinNL (y :: ys)

/-- `_colab_link(github_repo, notebook_path, branch)`. -/
def colabLink (githubRepo notebookPath branch : List Char) : List Char :=
  "https://colab.research.google.com/github/".toList ++ githubRepo ++
    "/blob/".toList ++ branch ++ '/' :: notebookPath

/-- The lines appended for one `NotebookItem` (module line, one line per
notebook, blank separator). -/
def moduleLines (githubRepo : Option (List Char)) (it : NotebookItem) :
    List (List Char) :=
  ("- **[".toList ++ it.module_title ++ "](./".toList ++ it.module_dir ++ "/)**".toList)
    :: (it.notebooks.map fun nb =>
      match githubRepo with
      | some repo =>
        "  - [".toList ++ nb ++ "](".toList ++
          colabLink repo (it.module_dir ++ '/' :: nb) "main".toList ++ ")".toList
      | none =>
        "  - `".toList ++ nb ++
          "`（Colabリンク生成には ZIKUU_GITHUB_REPO の設定が必要）".toList)
    ++ [[]]

/-- `_render_list(items, github_repo)`, with `datetime.now(...)`'s
formatted timestamp made an explicit input `nowUtc`. -/
def renderList (items : List NotebookItem) (githubRepo : Option (List Char))
    (nowUtc : List Char) : List Char :=
  if items = [] then "- （まだNotebookがありません）\n".toList
  else
    let lines := ("更新: ".toList ++ nowUtc ++ ['\n'])
      :: items.flatMap (moduleLines githubRepo)
    pyRstrip (joinNL lines) ++ ['\n']

/-! ### Spec-side title rule (for comparison only)

Claim C7 describes the heading pattern as: the trimmed line consists of
exactly one `#`, then at least one space, then non-empty content, the
title being that content trimmed. -/

/-- Modelled from the spec words of C7: a line matches when its trimmed
content is one `#` followed by at least one whitespace character and
non-empty remaining content; the captured title is that content,
trimmed. -/
def specH1LineC7 (line : List Char) : Option (List Char) :=
  match pyStripL line with
  | '#' :: c :: rest =>
    if isPySpace c && (c :: rest).dropWhile isPySpace ≠ [] then
      some (pyStripL (c :: rest))
    else none
  | _ => none

/-- Modelled from the spec words of C7: title of a directory, using the
first line matching `specH1LineC7`, else the directory name. -/
def specTitleC7 (readme : Option (List Char)) (dirName : List Char) : List Char :=
  match readme with
  | none => dirName
  | some text =>
    match (splitLinesPy text).findSome? specH1LineC7 with
    | some t => t
    | none => dirName

/-! ### Concrete scenarios

A fixed timestamp, an adversarial root listing whose directory name embeds
the END marker, and a benign root listing; used to settle the idempotence
claim on explicit inputs. -/

/-- A fixed timestamp string (the timestamp held fixed between runs). -/
def c3Ts : List Char := "2025-01-01 00:00:00Z".toList

/-- Adversarial root listing: one module directory whose name contains the
END marker (legal on a POSIX filesystem), holding one notebook. -/
def c3Fs : List RootEntry :=
  [⟨"<!-- ZIKUU_NOTEBOOKS_LIST:END -->x".toList, true,
    [⟨"a.ipynb".toList, true⟩], none⟩]

/-- The block rendered from `c3Fs` (unchanged between the two runs). -/
def c3Nb : List Char :=
  renderList (listModules c3Fs) (some "acme/widgets".toList) c3Ts

/-- A README with well-formed markers. -/
def c3Text : List Char :=
  ("# Repo\n<!-- ZIKUU_NOTEBOOKS_LIST:BEGIN -->\nold\n" ++
   "<!-- ZIKUU_NOTEBOOKS_LIST:END -->\ntail\n").toList

/-- Output of the first substitution in the adversarial scenario. -/
def c3Out : List Char :=
  match replaceBetweenMarkers c3Text c3Nb with
  | Except.ok r => r
  | Except.error _ => []

/-- Output of the second substitution in the adversarial scenario. -/
def c3Out2 : List Char :=
  match replaceBetweenMarkers c3Out c3Nb with
  | Except.ok r => r
  | Except.error _ => []

/-- Benign root listing: one module directory with one notebook. -/
def c3wFs : List RootEntry :=
  [⟨"alpha".toList, true, [⟨"intro.ipynb".toList, true⟩],
    some "# Alpha\n".toList⟩]

/-- The block rendered from `c3wFs`. -/
def c3wNb : List Char :=
  renderList (listModules c3wFs) (some "acme/widgets".toList) c3Ts

/-- Output of the first substitution in the benign scenario. -/
def c3wOut : List Char :=
  match replaceBetweenMarkers c3Text c3wNb with
  | Except.ok r => r
  | Except.error _ => []

/-- C1 witness scenario: a README text with both markers in order. -/
def c1T : List Char :=
  ("A" ++ "<!-- ZIKUU_NOTEBOOKS_LIST:BEGIN -->" ++ "\nB\n" ++
   "<!-- ZIKUU_NOTEBOOKS_LIST:END -->" ++ "C").toList

/-- C1 witness block, containing the END marker as a substring. -/
def c1Nb : List Char := "NEW <!-- ZIKUU_NOTEBOOKS_LIST:END --> NEW".toList

/-- C2 witness scenario: END marker before BEGIN marker. -/
def c2T : List Char :=
  ("<!-- ZIKUU_NOTEBOOKS_LIST:END -->" ++
   "<!-- ZIKUU_NOTEBOOKS_LIST:BEGIN -->").toList

/-! ### Lemmas about `startsWithL` and `findSub` -/

theorem startsWithL_iff_take {sub s : List Char} :
    startsWithL sub s = true ↔ s.take sub.length = sub := by
  induction sub generalizing s with
  | nil => simp [startsWithL]
  | cons a as ih =>
    cases s with
    | nil => simp [startsWithL]
    | cons b bs =>
      simp [startsWithL, ih, List.take_succ_cons, @eq_comm _ a b]

theorem startsWithL_length_le {sub s : List Char}
    (h : startsWithL sub s = true) : sub.length ≤ s.length := by
  have := congrArg List.length (startsWithL_iff_take.mp h)
  simp [List.length_take] at this
  omega

theorem findSub_some_startsWith {s sub : List Char} {i : Nat}
    (h : findSub s sub = some i) : startsWithL sub (s.drop i) = true := by
  induction s generalizing i with
  | nil =>
    rw [findSub] at h
    split at h
    · rename_i hg; cases h; simpa using hg
    · exact Option.noConfusion h
  | cons c t ih =>
    rw [findSub] at h
    split at h
    · rename_i hg; cases h; simpa using hg
    · simp only [Option.map_eq_some'] at h
      obtain ⟨i', hi', rfl⟩ := h
      simpa using ih hi'

theorem findSub_some_min {s sub : List Char} {i : Nat}
    (h : findSub s sub = some i) : ∀ j, j < i → startsWithL sub (s.drop j) = false := by
  induction s generalizing i with
  | nil =>
    rw [findSub] at h
    split at h
    · cases h; intro j hj; exact absurd hj (by omega)
    · exact Option.noConfusion h
  | cons c t ih =>
    rw [findSub] at h
    split at h
    · cases h; intro j hj; exact absurd hj (by omega)
    · rename_i hg
      simp only [Option.map_eq_some'] at h
      obtain ⟨i', hi', rfl⟩ := h
      intro j hj
      cases j with
      | zero => simpa using hg
      | succ j' => simpa using ih hi' j' (by omega)

theorem findSub_intro {s sub : List Char} {i : Nat}
    (h1 : startsWithL sub (s.drop i) = true)
    (h2 : ∀ j, j < i → startsWithL sub (s.drop j) = false) :
    findSub s sub = some i := by
  induction s generalizing i with
  | nil =>
    rw [findSub]
    have hi : i = 0 := by
      by_contra hne
      have := h2 0 (by omega)
      simp at this
      simp [List.drop_nil] at h1
      simp [h1] at this
    subst hi
    simp at h1
    simp [h1]
  | cons c t ih =>
    rw [findSub]
    cases i with
    | zero =>
      simp at h1
      simp [h1]
    | succ i' =>
      have hg : startsWithL sub (c :: t) = false := by
        simpa using h2 0 (by omega)
      have hrec : findSub t sub = some i' :=
        ih (by simpa using h1) (fun j hj => by simpa using h2 (j + 1) (by omega))
      simp [hg, hrec]

theorem findSub_none {s sub : List Char}
    (h : findSub s sub = none) : ∀ j, startsWithL sub (s.drop j) = false := by
  induction s with
  | nil =>
    rw [findSub] at h
    split at h
    · exact Option.noConfusion h
    · rename_i hg; intro j; simpa using hg
  | cons c t ih =>
    rw [findSub] at h
    split at h
    · exact Option.noConfusion h
    · rename_i hg
      simp only [Option.map_eq_none'] at h
      intro j
      cases j with
      | zero => simpa using hg
      | succ j' => simpa using ih h j'

theorem startsWith_window_eq {s t pat : List Char} {j n : Nat}
    (hagree : s.take n = t.take n) (hwin : j + pat.length ≤ n) :
    startsWithL pat (s.drop j) = startsWithL pat (t.drop j) := by
  have key : (s.drop j).take pat.length = (t.drop j).take pat.length := by
    rw [List.take_drop, List.take_drop]
    have hs : s.take (j + pat.length) = t.take (j + pat.length) := by
      have h := congrArg (List.take (j + pat.length)) hagree
      rwa [List.take_take, List.take_take, Nat.min_eq_left hwin] at h
    rw [hs]
  have h2 : (startsWithL pat (s.drop j) = true) ↔ (startsWithL pat (t.drop j) = true) := by
    rw [startsWithL_iff_take, startsWithL_iff_take, key]
  cases ht : startsWithL pat (t.drop j) with
  | true => exact h2.mpr ht
  | false =>
    cases hs : startsWithL pat (s.drop j) with
    | true => exact absurd (h2.mp hs) (by simp [ht])
    | false => rfl

theorem marker_mismatch :
    ∀ d, d < 35 → ((List.range 33).any fun k =>
      decide (k < 35 - d) && (beginMarkerL[d + k]? != endMarkerL[k]?)) = true := by
  decide

theorem end_not_near_begin {text : List Char} {b e : Nat}
    (hb : findSub text beginMarkerL = some b)
    (he : findSub text endMarkerL = some e)
    (hge : b ≤ e) : b + 35 ≤ e := by
  by_contra hlt
  push_neg at hlt
  have hd35 : e - b < 35 := by omega
  have hsb := findSub_some_startsWith hb
  have hse := findSub_some_startsWith he
  have hmm := marker_mismatch (e - b) hd35
  rw [List.any_eq_true] at hmm
  obtain ⟨k, hkmem, hk⟩ := hmm
  rw [List.mem_range] at hkmem
  simp only [Bool.and_eq_true, decide_eq_true_eq, bne_iff_ne] at hk
  obtain ⟨hklt, hkne⟩ := hk
  have htb : (text.drop b).take beginMarkerL.length = beginMarkerL :=
    startsWithL_iff_take.mp hsb
  have hte : (text.drop e).take endMarkerL.length = endMarkerL :=
    startsWithL_iff_take.mp hse
  have hbl : beginMarkerL.length = 35 := rfl
  have hel : endMarkerL.length = 33 := rfl
  have h1 : beginMarkerL[e - b + k]? = text[b + (e - b + k)]? := by
    rw [← htb, List.getElem?_take_of_lt (by omega), List.getElem?_drop]
  have h2 : endMarkerL[k]? = text[e + k]? := by
    rw [← hte, List.getElem?_take_of_lt (by omega), List.getElem?_drop]
  have h3 : b + (e - b + k) = e + k := by omega
  exact hkne (by rw [h1, h3, ← h2])

theorem replace_eq_ok {text nb : List Char} {b e : Nat}
    (hb : findSub text beginMarkerL = some b)
    (he : findSub text endMarkerL = some e)
    (hle : b + beginMarkerL.length ≤ e) :
    replaceBetweenMarkers text nb =
      Except.ok (text.take (b + beginMarkerL.length) ++ '\n' :: (nb ++ text.drop e)) := by
  unfold replaceBetweenMarkers
  rw [hb, he]
  simp only []
  rw [if_neg (by omega)]

theorem replace_eq_error_order {text nb : List Char} {b e : Nat}
    (hb : findSub text beginMarkerL = some b)
    (he : findSub text endMarkerL = some e)
    (hlt : e < b + beginMarkerL.length) :
    replaceBetweenMarkers text nb =
      Except.error "マーカーの順序が不正です（END が BEGIN より前）" := by
  unfold replaceBetweenMarkers
  rw [hb, he]
  simp only []
  rw [if_pos (by omega)]

theorem findSub_add_length_le {s sub : List Char} {i : Nat}
    (h : findSub s sub = some i) (hpos : 0 < sub.length) :
    i + sub.length ≤ s.length := by
  have hl := startsWithL_length_le (findSub_some_startsWith h)
  rw [List.length_drop] at hl
  omega

theorem mainRun_error_of_replace {text nb : List Char} {msg : String}
    (h : replaceBetweenMarkers text nb = Except.error msg) :
    fileAfter text nb = text := by
  unfold fileAfter mainRun
  rw [h]


/-- C1: when both markers occur and the first END occurrence starts at or
after the end of the first BEGIN occurrence, substitution returns exactly
the text up to and including BEGIN, a newline, the new block, and the text
from END onward; the prefix and the suffix are unchanged. -/
theorem c1_marker_substitution_frame (text nb : List Char) (b e : Nat)
    (hb : findSub text beginMarkerL = some b)
    (he : findSub text endMarkerL = some e)
    (hle : b + beginMarkerL.length ≤ e) :
    replaceBetweenMarkers text nb =
      Except.ok (text.take (b + beginMarkerL.length) ++ '\n' :: (nb ++ text.drop e)) ∧
    (text.take (b + beginMarkerL.length) ++ '\n' :: (nb ++ text.drop e)).take
        (b + beginMarkerL.length) = text.take (b + beginMarkerL.length) ∧
    (text.take (b + beginMarkerL.length) ++ '\n' :: (nb ++ text.drop e)).drop
        (b + beginMarkerL.length + 1 + nb.length) = text.drop e := by
  have hbound : b + beginMarkerL.length ≤ text.length :=
    findSub_add_length_le hb (by decide)
  have hlen : (text.take (b + beginMarkerL.length)).length = b + beginMarkerL.length :=
    List.length_take_of_le hbound
  refine ⟨replace_eq_ok hb he hle, List.take_left' hlen, ?_⟩
  have heq : text.take (b + beginMarkerL.length) ++ '\n' :: (nb ++ text.drop e)
      = (text.take (b + beginMarkerL.length) ++ '\n' :: nb) ++ text.drop e := by
    simp
  rw [heq]
  apply List.drop_left'
  simp [hlen]
  omega

/-- C1 witness: the theorem applied to an explicit README text and a block
containing the END marker itself. -/
theorem c1_marker_substitution_frame_witness :
    replaceBetweenMarkers c1T c1Nb =
      Except.ok (c1T.take (1 + beginMarkerL.length) ++ '\n' :: (c1Nb ++ c1T.drop 39)) :=
  (c1_marker_substitution_frame c1T c1Nb 1 39 (by decide) (by decide) (by decide)).1

/-- C2: substitution fails exactly when a marker is missing or the first
END occurrence precedes the first BEGIN occurrence, and on failure the run
aborts before the write, leaving the README unchanged. -/
theorem c2_failure_iff (text nb : List Char) :
    ((∃ msg, replaceBetweenMarkers text nb = Except.error msg) ↔
      (findSub text beginMarkerL = none ∨ findSub text endMarkerL = none ∨
        ∃ b e, findSub text beginMarkerL = some b ∧
          findSub text endMarkerL = some e ∧ e < b)) ∧
    ((∃ msg, replaceBetweenMarkers text nb = Except.error msg) →
      fileAfter text nb = text) := by
  constructor
  · constructor
    · rintro ⟨msg, hmsg⟩
      cases hb : findSub text beginMarkerL with
      | none => exact Or.inl rfl
      | some b =>
        cases he : findSub text endMarkerL with
        | none => exact Or.inr (Or.inl rfl)
        | some e =>
          refine Or.inr (Or.inr ⟨b, e, rfl, rfl, ?_⟩)
          by_contra hble
          push_neg at hble
          have h35 := end_not_near_begin hb he hble
          have hok := @replace_eq_ok text nb b e hb he
            (by have : beginMarkerL.length = 35 := rfl; omega)
          rw [hok] at hmsg
          exact Except.noConfusion hmsg
    · intro h
      rcases h with hb | he | ⟨b, e, hb, he, hlt⟩
      · refine ⟨"README.md にマーカーが見つかりません（BEGIN/END）", ?_⟩
        unfold replaceBetweenMarkers
        rw [hb]
      · refine ⟨"README.md にマーカーが見つかりません（BEGIN/END）", ?_⟩
        unfold replaceBetweenMarkers
        rw [he]
        cases findSub text beginMarkerL <;> rfl
      · exact ⟨_, replace_eq_error_order hb he
          (by have : beginMarkerL.length = 35 := rfl; omega)⟩
  · rintro ⟨msg, hmsg⟩
    exact mainRun_error_of_replace hmsg

/-- C2 witness: an explicit README whose END marker precedes its BEGIN
marker is left unchanged. -/
theorem c2_failure_iff_witness : fileAfter c2T "NB".toList = c2T :=
  (c2_failure_iff c2T "NB".toList).2
    ⟨"マーカーの順序が不正です（END が BEGIN より前）", by rfl⟩

theorem dropWhile_head_false {p : Char → Bool} (l : List Char) :
    ∀ {c t}, l.dropWhile p = c :: t → p c = false := by
  induction l with
  | nil => intro c t h; exact List.noConfusion h
  | cons a l' ih =>
    intro c t h
    rw [List.dropWhile_cons] at h
    split at h
    · exact ih h
    · rename_i hpa; cases h; simpa using hpa

theorem rstrip_last_of_mem {x : List Char} {a : Char}
    (ha : a ∈ x) (hna : isPySpace a = false) :
    ∃ c, (pyRstrip x).getLast? = some c ∧ isPySpace c = false := by
  unfold pyRstrip
  cases hy : x.reverse.dropWhile isPySpace with
  | nil =>
    exfalso
    rw [List.dropWhile_eq_nil_iff] at hy
    have h := hy a (by simpa using ha)
    rw [hna] at h
    exact Bool.noConfusion h
  | cons c t =>
    refine ⟨c, ?_, dropWhile_head_false _ hy⟩
    simp

theorem joinNL_cons_ex (x : List Char) (xs : List (List Char)) :
    ∃ r, joinNL (x :: xs) = x ++ r := by
  cases xs with
  | nil => exact ⟨[], by simp [joinNL]⟩
  | cons y ys => exact ⟨'\n' :: joinNL (y :: ys), rfl⟩

/-- C4: the three remote URLs of the claim parse as stated. -/
theorem c4_identifier_parsing :
    parseGithubRepoFromRemote "https://github.com/acme/widgets.git".toList =
      some "acme/widgets".toList ∧
    parseGithubRepoFromRemote "git@github.com:acme/widgets.git".toList =
      some "acme/widgets".toList ∧
    parseGithubRepoFromRemote "https://gitlab.com/acme/widgets".toList = none :=
  ⟨by decide, by decide, by decide⟩

/-- C8: a non-blank `ZIKUU_GITHUB_REPO` value is returned trimmed and
verbatim, independently of the remote; a blank or unset value falls back
to the remote path. -/
theorem c8_env_priority (env remote remote' : Option (List Char)) :
    (pyStripL (env.getD []) ≠ [] →
      detectGithubRepo env remote = some (pyStripL (env.getD [])) ∧
      detectGithubRepo env remote = detectGithubRepo env remote') ∧
    (pyStripL (env.getD []) = [] →
      detectGithubRepo env remote = detectGithubRepo none remote) := by
  constructor
  · intro h
    constructor <;> simp [detectGithubRepo, h]
  · intro h
    have h0 : pyStripL ([] : List Char) = [] := rfl
    simp [detectGithubRepo, h, h0]

/-- C8 witness: explicit environment value and remotes. -/
theorem c8_env_priority_witness :
    detectGithubRepo (some " acme/widgets ".toList)
        (some "https://github.com/other/repo.git".toList) =
      some (pyStripL ((some " acme/widgets ".toList).getD [])) ∧
    detectGithubRepo (some " acme/widgets ".toList)
        (some "https://github.com/other/repo.git".toList) =
      detectGithubRepo (some " acme/widgets ".toList) none :=
  (c8_env_priority (some " acme/widgets ".toList)
    (some "https://github.com/other/repo.git".toList) none).1 (by decide)

/-- C9: the rendered block always ends in exactly one newline, preceded by
a non-whitespace character. -/
theorem c9_render_single_trailing_newline (items : List NotebookItem)
    (githubRepo : Option (List Char)) (nowUtc : List Char) :
    ∃ t c, renderList items githubRepo nowUtc = t ++ ['\n'] ∧
      t.getLast? = some c ∧ isPySpace c = false := by
  unfold renderList
  by_cases hi : items = []
  · rw [if_pos hi]
    exact ⟨"- （まだNotebookがありません）".toList, '）', by decide, by decide, by decide⟩
  · rw [if_neg hi]
    have hmem : '更' ∈ joinNL (("更新: ".toList ++ nowUtc ++ ['\n'])
        :: items.flatMap (moduleLines githubRepo)) := by
      obtain ⟨r, hr⟩ := joinNL_cons_ex ("更新: ".toList ++ nowUtc ++ ['\n'])
        (items.flatMap (moduleLines githubRepo))
      rw [hr]
      exact List.mem_append.mpr (Or.inl (List.mem_append.mpr (Or.inl
        (List.mem_append.mpr (Or.inl (by decide))))))
    obtain ⟨c, hc, hcw⟩ := rstrip_last_of_mem hmem (by decide)
    exact ⟨_, c, rfl, hc, hcw⟩

theorem leL_total (a b : List Char) : (leL a b || leL b a) = true := by
  induction a generalizing b with
  | nil => simp [leL]
  | cons x xs ih =>
    cases b with
    | nil => simp [leL]
    | cons y ys =>
      by_cases hxy : x.toNat = y.toNat
      · simpa [leL, hxy] using ih ys
      · have h2 : ¬ y.toNat = x.toNat := fun h => hxy h.symm
        simp [leL, hxy, h2]


theorem leL_trans (a b c : List Char) (hab : leL a b = true)
    (hbc : leL b c = true) : leL a c = true := by
  induction a generalizing b c with
  | nil => simp [leL]
  | cons x xs ih =>
    cases b with
    | nil => simp [leL] at hab
    | cons y ys =>
      cases c with
      | nil => simp [leL] at hbc
      | cons z zs =>
        by_cases h1 : x.toNat = y.toNat <;> by_cases h2 : y.toNat = z.toNat
        · rw [leL, if_pos (h1.trans h2)]
          rw [leL, if_pos h1] at hab
          rw [leL, if_pos h2] at hbc
          exact ih ys zs hab hbc
        · rw [leL, if_pos h1] at hab
          rw [leL, if_neg h2] at hbc
          have hlt : y.toNat < z.toNat := of_decide_eq_true hbc
          rw [leL, if_neg (by omega)]
          simp
          omega
        · rw [leL, if_neg h1] at hab
          have hlt : x.toNat < y.toNat := of_decide_eq_true hab
          rw [leL, if_pos h2] at hbc
          rw [leL, if_neg (by omega)]
          simp
          omega
        · rw [leL, if_neg h1] at hab
          rw [leL, if_neg h2] at hbc
          have l1 : x.toNat < y.toNat := of_decide_eq_true hab
          have l2 : y.toNat < z.toNat := of_decide_eq_true hbc
          rw [leL, if_neg (by omega)]
          simp
          omega

theorem moduleItemOf_inv {p : RootEntry} {it : NotebookItem}
    (h : moduleItemOf p = some it) :
    it.module_dir = p.name ∧ p.isDirectory = true ∧ p.name ∉ EXCLUDE_DIRS ∧
    startsWithL ['.'] p.name = false ∧
    it.module_title = titleOf p.readme p.name ∧
    it.notebooks = sortStrs (p.children.filterMap fun f =>
      if endsWithL ".ipynb".toList f.name && f.isFile then some f.name else none) ∧
    it.notebooks ≠ [] := by
  rw [moduleItemOf] at h
  split at h
  · exact Option.noConfusion h
  split at h
  · exact Option.noConfusion h
  split at h
  · exact Option.noConfusion h
  simp only [] at h
  split at h
  · exact Option.noConfusion h
  injection h with h5
  subst h5
  rename_i h1 h2 h3 h4
  refine ⟨rfl, ?_, h2, ?_, rfl, rfl, h4⟩
  · simpa using h1
  · simpa using h3

theorem titleOf_ne_nil {readme : Option (List Char)} {d : List Char}
    (hd : d ≠ []) : titleOf readme d ≠ [] := by
  unfold titleOf
  cases firstH1FromReadme readme with
  | none => exact hd
  | some t =>
    show (if t = [] then d else t) ≠ []
    by_cases ht : t = []
    · rw [if_pos ht]; exact hd
    · rw [if_neg ht]; exact ht

/-- C5: module enumeration is sorted ascending by directory name, and no
excluded or hidden directory ever yields an entry. -/
theorem c5_order_and_exclusion (entries : List RootEntry) :
    (listModules entries).Pairwise
      (fun i j => leL i.module_dir j.module_dir = true) ∧
    ∀ it ∈ listModules entries,
      it.module_dir ∉ EXCLUDE_DIRS ∧ startsWithL ['.'] it.module_dir = false := by
  constructor
  · have hs : (List.insertionSort pyLeName entries).Pairwise pyLeName := by
      haveI : IsTotal RootEntry pyLeName :=
        ⟨fun a b => by simpa using leL_total a.name b.name⟩
      haveI : IsTrans RootEntry pyLeName :=
        ⟨fun a b c => leL_trans a.name b.name c.name⟩
      exact List.sorted_insertionSort pyLeName entries
    rw [listModules, List.pairwise_filterMap]
    refine hs.imp ?_
    intro a b hab x hx y hy
    rw [Option.mem_def] at hx hy
    rw [(moduleItemOf_inv hx).1, (moduleItemOf_inv hy).1]
    exact hab
  · intro it hit
    rw [listModules, List.mem_filterMap] at hit
    obtain ⟨p, _, hsome⟩ := hit
    obtain ⟨hdir, _, hex, hdot, _⟩ := moduleItemOf_inv hsome
    rw [hdir]
    exact ⟨hex, hdot⟩

/-- C5 witness: a two-directory listing, applied to the produced entry. -/
theorem c5_order_and_exclusion_witness :
    (⟨"a".toList, "a".toList, ["m.ipynb".toList]⟩ : NotebookItem).module_dir ∉
      EXCLUDE_DIRS ∧
    startsWithL ['.']
      (⟨"a".toList, "a".toList, ["m.ipynb".toList]⟩ : NotebookItem).module_dir
      = false :=
  (c5_order_and_exclusion
    [⟨"b".toList, true, [⟨"n.ipynb".toList, true⟩], none⟩,
     ⟨"a".toList, true, [⟨"m.ipynb".toList, true⟩], none⟩]).2
    ⟨"a".toList, "a".toList, ["m.ipynb".toList]⟩ (by decide)

/-- C6: a directory with files but no notebook file yields no entry at all. -/
theorem c6_no_notebook_no_entry (p : RootEntry)
    (_hfiles : ∃ c ∈ p.children, c.isFile = true)
    (hnone : ∀ c ∈ p.children,
      ¬(endsWithL ".ipynb".toList c.name = true ∧ c.isFile = true)) :
    moduleItemOf p = none := by
  have hnb : (p.children.filterMap fun f =>
      if endsWithL ".ipynb".toList f.name && f.isFile then some f.name else none) = [] := by
    rw [List.filterMap_eq_nil_iff]
    intro c hc
    rw [if_neg]
    intro hcond
    rw [Bool.and_eq_true] at hcond
    exact hnone c hc ⟨hcond.1, hcond.2⟩
  rw [moduleItemOf]
  split
  · rfl
  split
  · rfl
  split
  · rfl
  simp only [hnb]
  rfl

/-- C6 witness: a directory holding only a text file. -/
theorem c6_no_notebook_no_entry_witness :
    moduleItemOf ⟨"docs".toList, true, [⟨"x.txt".toList, true⟩], none⟩ = none :=
  c6_no_notebook_no_entry _ (by decide) (by decide)

/-- C7 counterexample: in `"#  \n# Real\n"` the first regex-matching line
has whitespace-only captured content, so the code falls back to the
directory name, while the claim's reading of the pattern picks the later
line `# Real`. -/
theorem c7_title_counterexample :
    titleOf (some "#  \n# Real\n".toList) "mod".toList = "mod".toList ∧
    specTitleC7 (some "#  \n# Real\n".toList) "mod".toList = "Real".toList ∧
    "mod".toList ≠ "Real".toList :=
  ⟨by decide, by decide, by decide⟩

/-- C7 amended: with "matching" read as the code's regex (optional leading
whitespace, one `#`, at least one whitespace character, at least one
further character), the title is the directory name when the README is
absent or no line matches, and otherwise the trimmed captured content of
the first matching line when that content is non-empty, the directory name
when it is blank. -/
theorem c7_title_fallback (readme : Option (List Char)) (dirName : List Char) :
    firstH1FromReadme none = none ∧
    (firstH1FromReadme readme = none → titleOf readme dirName = dirName) ∧
    (∀ t, firstH1FromReadme readme = some t →
      titleOf readme dirName = if t = [] then dirName else t) := by
  refine ⟨rfl, ?_, ?_⟩
  · intro h
    unfold titleOf
    rw [h]
  · intro t h
    unfold titleOf
    rw [h]

/-- C7 witness: a README whose only heading line is `# Real`. -/
theorem c7_title_fallback_witness :
    titleOf (some "# Real\n".toList) "mod".toList =
      if "Real".toList = [] then "mod".toList else "Real".toList :=
  (c7_title_fallback (some "# Real\n".toList) "mod".toList).2.2
    "Real".toList (by decide)

/-- C10: produced entries have non-empty, unique directory names, non-empty
sorted notebook lists and non-empty titles; a whitespace-only extracted
heading falls back to the directory name. -/
theorem c10_entry_invariants (entries : List RootEntry)
    (hne : ∀ e ∈ entries, e.name ≠ [])
    (huniq : entries.Pairwise fun a b => a.name ≠ b.name) :
    ((listModules entries).Pairwise fun a b => a.module_dir ≠ b.module_dir) ∧
    (∀ it ∈ listModules entries,
      it.module_dir ≠ [] ∧ it.module_title ≠ [] ∧ it.notebooks ≠ [] ∧
      it.notebooks.Pairwise pyLe) ∧
    (∀ text d, firstH1FromReadme (some text) = some [] →
      titleOf (some text) d = d) := by
  refine ⟨?_, ?_, ?_⟩
  · have hperm := List.perm_insertionSort pyLeName entries
    have hsorted : (List.insertionSort pyLeName entries).Pairwise
        (fun a b : RootEntry => a.name ≠ b.name) :=
      (hperm.pairwise_iff (fun h => fun heq => h heq.symm)).mpr huniq
    rw [listModules, List.pairwise_filterMap]
    refine hsorted.imp ?_
    intro a b hab x hx y hy
    rw [Option.mem_def] at hx hy
    rw [(moduleItemOf_inv hx).1, (moduleItemOf_inv hy).1]
    exact hab
  · intro it hit
    rw [listModules, List.mem_filterMap] at hit
    obtain ⟨p, hp, hsome⟩ := hit
    have hpmem : p ∈ entries := (List.perm_insertionSort pyLeName entries).mem_iff.mp hp
    obtain ⟨hdir, _, _, _, htitle, hnbs, hnbne⟩ := moduleItemOf_inv hsome
    have hname : p.name ≠ [] := hne p hpmem
    refine ⟨by rw [hdir]; exact hname, ?_, hnbne, ?_⟩
    · rw [htitle]
      exact titleOf_ne_nil hname
    · rw [hnbs]
      haveI : IsTotal (List Char) pyLe := ⟨fun a b => by simpa using leL_total a b⟩
      haveI : IsTrans (List Char) pyLe := ⟨fun a b c => leL_trans a b c⟩
      exact List.sorted_insertionSort pyLe _
  · intro text d h
    unfold titleOf
    rw [h]
    rfl

/-- C10 witness: one directory whose README's heading line has
whitespace-only content; the directory name is used as the title. -/
theorem c10_entry_invariants_witness :
    (⟨"m".toList, "m".toList, ["a.ipynb".toList, "b.ipynb".toList]⟩ :
        NotebookItem).module_dir ≠ [] ∧
    (⟨"m".toList, "m".toList, ["a.ipynb".toList, "b.ipynb".toList]⟩ :
        NotebookItem).module_title ≠ [] ∧
    (⟨"m".toList, "m".toList, ["a.ipynb".toList, "b.ipynb".toList]⟩ :
        NotebookItem).notebooks ≠ [] ∧
    (⟨"m".toList, "m".toList, ["a.ipynb".toList, "b.ipynb".toList]⟩ :
        NotebookItem).notebooks.Pairwise pyLe :=
  (c10_entry_invariants
      [⟨"m".toList, true,
        [⟨"b.ipynb".toList, true⟩, ⟨"a.ipynb".toList, true⟩],
        some "#  \n".toList⟩]
      (by decide) (by decide)).2.1
    ⟨"m".toList, "m".toList, ["a.ipynb".toList, "b.ipynb".toList]⟩ (by decide)

theorem startsWith_getElem {sub s : List Char} {k : Nat}
    (h : startsWithL sub s = true) (hk : k < sub.length) : s[k]? = sub[k]? := by
  conv_rhs => rw [← startsWithL_iff_take.mp h]
  rw [List.getElem?_take_of_lt hk]

theorem startsWith_end_head {s : List Char}
    (h : startsWithL endMarkerL s = true) : s[0]? = some '<' := by
  rw [startsWith_getElem h (by decide)]
  rfl

theorem begin_no_lt_char :
    ∀ k, k < 35 → k = 0 ∨ ¬(beginMarkerL[k]? = some '<') := by decide

theorem end_no_self_overlap :
    ∀ m, m < 33 → m = 0 ∨ endMarkerL.drop m ≠ endMarkerL.take (33 - m) := by decide

theorem end_not_startsWith_newline (rest : List Char) :
    startsWithL endMarkerL ('\n' :: rest) = false := by
  show startsWithL ('<' :: "!-- ZIKUU_NOTEBOOKS_LIST:END -->".toList) ('\n' :: rest) = false
  rw [startsWithL]
  rw [show (('<' : Char) == '\n') = false from rfl, Bool.false_and]

theorem replace_ok_inv {text nb out : List Char}
    (h : replaceBetweenMarkers text nb = Except.ok out) :
    ∃ b e, findSub text beginMarkerL = some b ∧ findSub text endMarkerL = some e ∧
      b + beginMarkerL.length ≤ e ∧
      out = text.take (b + beginMarkerL.length) ++ '\n' :: (nb ++ text.drop e) := by
  unfold replaceBetweenMarkers at h
  cases hb : findSub text beginMarkerL with
  | none => rw [hb] at h; cases findSub text endMarkerL <;> exact Except.noConfusion h
  | some b =>
    cases he : findSub text endMarkerL with
    | none => rw [hb, he] at h; exact Except.noConfusion h
    | some e =>
      rw [hb, he] at h
      simp only [] at h
      split at h
      · exact Except.noConfusion h
      · rename_i hnlt
        injection h with h5
        exact ⟨b, e, rfl, rfl, by omega, h5.symm⟩

theorem replace_idempotent {text nb out : List Char}
    (hnb : findSub nb endMarkerL = none)
    (hok : replaceBetweenMarkers text nb = Except.ok out) :
    replaceBetweenMarkers out nb = Except.ok out := by
  obtain ⟨b, e, hb, he, hle, hout⟩ := replace_ok_inv hok
  have hL : beginMarkerL.length = 35 := rfl
  have hE : endMarkerL.length = 33 := rfl
  have hbound : b + 35 ≤ text.length := by
    have := findSub_add_length_le hb (by decide)
    omega
  have hle35 : b + 35 ≤ e := by omega
  rw [hL] at hout
  set P := text.take (b + 35) with hP
  set S := text.drop e with hS
  have hlenP : P.length = b + 35 := by
    rw [hP, List.length_take]
    omega
  have hsb := findSub_some_startsWith hb
  have hse := findSub_some_startsWith he
  have hA : out.take (b + 35) = P := by
    rw [hout, List.take_left' hlenP]
  have hagree : out.take (b + 35) = text.take (b + 35) := by rw [hA, hP]
  have hchar : ∀ j, b ≤ j → j < b + 35 → out[j]? = beginMarkerL[j - b]? := by
    intro j h1 h2
    have e1 : out[j]? = P[j]? := by
      rw [hout]
      exact List.getElem?_append_left (by omega)
    have e2 : P[j]? = text[j]? := by
      rw [hP]
      exact List.getElem?_take_of_lt h2
    have e3 : (text.drop b)[j - b]? = beginMarkerL[j - b]? :=
      startsWith_getElem hsb (by omega)
    rw [List.getElem?_drop] at e3
    rw [show b + (j - b) = j by omega] at e3
    rw [e1, e2]
    exact e3
  have hB : findSub out beginMarkerL = some b := by
    apply findSub_intro
    · rw [startsWith_window_eq hagree (by omega)]
      exact hsb
    · intro j hj
      rw [startsWith_window_eq hagree (by omega)]
      exact findSub_some_min hb j hj
  have hdrop35 : out.drop (b + 35) = '\n' :: (nb ++ S) := by
    rw [hout]
    exact List.drop_left' hlenP
  have hdropnb : ∀ d, d ≤ nb.length → out.drop (b + 36 + d) = nb.drop d ++ S := by
    intro d hd
    have h1 : out = (P ++ ['\n']) ++ (nb ++ S) := by rw [hout]; simp
    have hlen1 : (P ++ ['\n']).length = b + 36 := by simp [hlenP]
    rw [h1, List.drop_append_eq_append_drop]
    rw [List.drop_of_length_le (by rw [hlen1]; omega)]
    rw [hlen1, List.nil_append, show b + 36 + d - (b + 36) = d by omega]
    rw [List.drop_append_eq_append_drop]
    rw [show d - nb.length = 0 by omega, List.drop_zero]
  have hC : findSub out endMarkerL = some (b + 36 + nb.length) := by
    apply findSub_intro
    · rw [hdropnb nb.length (Nat.le_refl _), List.drop_length, List.nil_append]
      exact hse
    · intro j hj
      by_cases hj1 : j ≤ b + 2
      · rw [startsWith_window_eq hagree (by omega)]
        exact findSub_some_min he j (by omega)
      · by_cases hj2 : j < b + 35
        · cases hcon : startsWithL endMarkerL (out.drop j) with
          | false => rfl
          | true =>
            exfalso
            have hhead := startsWith_end_head hcon
            rw [List.getElem?_drop, Nat.add_zero] at hhead
            rw [hchar j (by omega) hj2] at hhead
            rcases begin_no_lt_char (j - b) (by omega) with h0 | hno
            · omega
            · exact hno hhead
        · by_cases hj3 : j = b + 35
          · subst hj3
            rw [hdrop35]
            exact end_not_startsWith_newline (nb ++ S)
          · cases hcon : startsWithL endMarkerL (out.drop j) with
            | false => rfl
            | true =>
              exfalso
              have hd : j - (b + 36) < nb.length := by omega
              have hdj : j = b + 36 + (j - (b + 36)) := by omega
              set d := j - (b + 36) with hdd
              rw [hdj, hdropnb d (by omega)] at hcon
              set m := nb.length - d with hm
              have hm1 : 1 ≤ m := by omega
              have hlen_nd : (nb.drop d).length = m := by
                rw [List.length_drop]
              by_cases hm33 : 33 ≤ m
              · have htk := startsWithL_iff_take.mp hcon
                rw [hE, List.take_append_eq_append_take, hlen_nd,
                  show 33 - m = 0 by omega, List.take_zero, List.append_nil] at htk
                have hsw : startsWithL endMarkerL (nb.drop d) = true := by
                  rw [startsWithL_iff_take, hE]
                  exact htk
                have hfalse := findSub_none hnb d
                rw [hsw] at hfalse
                exact Bool.noConfusion hfalse
              · push_neg at hm33
                have htk := startsWithL_iff_take.mp hcon
                rw [hE, List.take_append_eq_append_take, hlen_nd,
                  List.take_of_length_le (by rw [hlen_nd]; omega)] at htk
                have hs33 : S.take (33 - m) = endMarkerL.take (33 - m) := by
                  have h1 : S.take endMarkerL.length = endMarkerL :=
                    startsWithL_iff_take.mp hse
                  rw [hE] at h1
                  rw [← h1, List.take_take, show min (33 - m) 33 = 33 - m by omega]
                rw [hs33] at htk
                have hdropm := congrArg (List.drop m) htk
                rw [List.drop_append_eq_append_drop,
                  List.drop_of_length_le (by rw [hlen_nd]), hlen_nd,
                  Nat.sub_self, List.drop_zero, List.nil_append] at hdropm
                rcases end_no_self_overlap m (by omega) with h0 | hno
                · omega
                · exact hno hdropm.symm
  have he2 : b + beginMarkerL.length ≤ b + 36 + nb.length := by
    rw [hL]
    omega
  rw [replace_eq_ok hB hC he2]
  rw [hL, hA, hdropnb nb.length (Nat.le_refl _), List.drop_length, List.nil_append]
  rw [← hout]

/-- C3 counterexample: with an (unchanged) filesystem whose directory name
contains the END marker and a fixed timestamp, both runs compute the same
rendered block, yet the second substitution yields a different text and
the second run writes again. -/
theorem c3_idempotence_counterexample :
    c3Nb = renderList (listModules c3Fs) (some "acme/widgets".toList) c3Ts ∧
    replaceBetweenMarkers c3Text c3Nb = Except.ok c3Out ∧
    replaceBetweenMarkers c3Out c3Nb = Except.ok c3Out2 ∧
    mainRun c3Out c3Nb = Except.ok (true, c3Out2) ∧
    c3Out2 ≠ c3Out :=
  ⟨rfl, by rfl, by rfl, by rfl, by decide⟩

/-- C3 amended: when the new block does not contain the END marker — true
of every rendered block whose directory and file names avoid it —
substituting the same block into the output of a previous substitution
returns that output unchanged, so the second run's equality check
suppresses the write. -/
theorem c3_fixed_timestamp_second_run_noop (text nb out : List Char)
    (hnb : findSub nb endMarkerL = none)
    (hok : replaceBetweenMarkers text nb = Except.ok out) :
    replaceBetweenMarkers out nb = Except.ok out ∧
    mainRun out nb = Except.ok (false, out) := by
  have h := replace_idempotent hnb hok
  refine ⟨h, ?_⟩
  unfold mainRun
  rw [h]
  simp

/-- C3 witness: the benign scenario's second run is a no-op. -/
theorem c3_fixed_timestamp_second_run_noop_witness :
    replaceBetweenMarkers c3wOut c3wNb = Except.ok c3wOut ∧
    mainRun c3wOut c3wNb = Except.ok (false, c3wOut) :=
  c3_fixed_timestamp_second_run_noop c3Text c3wNb c3wOut (by decide) (by rfl)
